import Mathlib

/-!
Shallow embedding of the ddb-compositor index/table core
(`ddb_compositor/base_index.py`, `ddb_compositor/compositor_table.py`,
`ddb_compositor/indexes.py`).

Modelling conventions:
* Python strings are `List Char` (named `Str` here); a format string is kept in
  its parsed form, the list of `(literal, field)` pairs produced by
  `string.Formatter().parse` (only named placeholders are modelled).
* Python dicts are association lists with unique keys; dict assignment is
  `upsertStr`, `dict.update` is `updateWith`, key lookup is `lookupField` /
  `lookupStr`.
* Python numbers inside `query_score` are modelled as exact fractions (`Frac`,
  an unreduced numerator/denominator pair); `round` is `pyRound`,
  round-half-to-even, as Python's `round` behaves on these values.
* Fallible Python code (KeyError from `str.format` / dict indexing, ValueError
  from `str.split('')`, AttributeError from formatting a `None` template,
  exceptions raised in `Index.__init__`) is modelled with `Option` / `Except`.
-/

/-- Characters of a Python string. -/
abbrev Str := List Char

/-- A value stored in a field-value map: a string or an integer. -/
inductive FieldValue where
  | str (s : Str)
  | int (n : Int)
deriving DecidableEq

/-- Python `str()` applied to a field value. -/
def FieldValue.toStr : FieldValue → Str
  | .str s => s
  | .int n => (toString n).data

/-- One segment of a parsed format string: the literal text followed by an
optional named placeholder, exactly one tuple of `string.Formatter().parse`. -/
structure FormatSegment where
  literal : Str
  field : Option String
deriving DecidableEq

/-- A parsed format string. -/
abbrev FormatString := List FormatSegment

/-- A caller-supplied field-value map (Python dict, keys unique). -/
abbrev FieldValues := List (String × FieldValue)

/-- Keys of a field-value map (Python `dict.keys()`). -/
def keys (field_values : FieldValues) : List String := field_values.map (·.1)

/-- Dict lookup in a field-value map. -/
def lookupField (field_values : FieldValues) (k : String) : Option FieldValue :=
  (field_values.find? (fun p => decide (p.1 = k))).map (·.2)

/-- Dict lookup in a string-valued map (a physical item or extracted values). -/
def lookupStr (m : List (String × Str)) (k : String) : Option Str :=
  (m.find? (fun p => decide (p.1 = k))).map (·.2)

/-- Python dict assignment `m[k] = v` on a string-valued map: replace the
key's entry in place when present (dict keys are unique), else append. -/
def upsertStr : List (String × Str) → String → Str → List (String × Str)
  | [], k, v => [(k, v)]
  | p :: rest, k, v => if p.1 = k then (k, v) :: rest else p :: upsertStr rest k v

/-- Python `m.update(m2)` on string-valued maps. -/
def updateWith (m m2 : List (String × Str)) : List (String × Str) :=
  m2.foldl (fun a p => upsertStr a p.1 p.2) m

/-- Python `template.format(**field_values)`: substitute every placeholder with
`str(value)`; `none` models the KeyError raised when a placeholder's field is
absent (source: `str.format` in `Index.partition_key_value` and friends). -/
def formatValues : FormatString → FieldValues → Option Str
  | [], _ => some []
  | ⟨lit, none⟩ :: rest, field_values =>
    (formatValues rest field_values).map (fun r => lit ++ r)
  | ⟨lit, some f⟩ :: rest, field_values =>
    match lookupField field_values f with
    | none => none
    | some v => (formatValues rest field_values).map (fun r => lit ++ (v.toStr ++ r))

/-- Source `Index.__format_string_field_list`: the placeholder names of a
(possibly absent) format string, dropping `None` and empty names. -/
def format_string_field_list (format_string : Option FormatString) : List String :=
  (((format_string.getD []).filterMap FormatSegment.field).filter (fun f => decide (f ≠ "")))

/-- Source `Index.__ordered_intersection`. -/
def ordered_intersection (source_list match_list : List String) : List String :=
  source_list.filter (fun item => decide (item ∈ match_list))

/-- The sort-key contiguity counter of `Index.query_score` (the `for`/`break`
loop at base_index.py lines 194-198): count fields present in the values,
walking in template order, stopping at the first missing field. -/
def contiguousCount : List String → FieldValues → Nat
  | [], _ => 0
  | f :: rest, field_values =>
    if f ∈ keys field_values then 1 + contiguousCount rest field_values else 0

/-- Python `list.index` on strings (first occurrence; total here, returning the
length when absent, a case the source never reaches). -/
def pyIndex (x : String) : List String → Nat
  | [] => 0
  | y :: ys => if y = x then 0 else pyIndex x ys + 1

/-- Python `list.index` on integers. -/
def pyIndexInt (x : Int) : List Int → Nat
  | [] => 0
  | y :: ys => if y = x then 0 else pyIndexInt x ys + 1

/-- Python `max` of an integer list (total here; the empty case, on which
Python raises, is never reached by the source). -/
def listMax : List Int → Int
  | [] => 0
  | x :: xs => xs.foldl max x

/-- An exact, unreduced fraction: the model of the Python numbers flowing
through `query_score` (ints and the floats produced by `/`). All fractions the
source builds have positive denominators. -/
structure Frac where
  num : Int
  den : Int
deriving DecidableEq

/-- Embed an integer. -/
def Frac.ofInt (n : Int) : Frac := ⟨n, 1⟩

/-- Exact addition. -/
def Frac.add (a b : Frac) : Frac := ⟨a.num * b.den + b.num * a.den, a.den * b.den⟩

/-- Exact multiplication. -/
def Frac.mul (a b : Frac) : Frac := ⟨a.num * b.num, a.den * b.den⟩

/-- Exact division (Python `/`). -/
def Frac.div (a b : Frac) : Frac := ⟨a.num * b.den, a.den * b.num⟩

/-- Python `round` (banker's rounding, half to even) on an exact fraction with
positive denominator. -/
def pyRound (q : Frac) : Int :=
  let f := q.num.fdiv q.den
  let r := q.num.fmod q.den
  if 2 * r < q.den then f
  else if q.den < 2 * r then f + 1
  else if f % 2 = 0 then f else f + 1

/-- A DynamoDB key condition as assembled from boto3 `Key(...)` combinators in
`Index.get_condition_expression`. -/
inductive KeyCondition where
  | eq (attr : Option String) (value : Str)
  | beginsWith (attr : Option String) (value : Str)
  | and (left right : KeyCondition)
deriving DecidableEq

/-- Source `Index` (base_index.py): the attributes set up by `__init__`. The
`type` is kept as the raw integer IntEnum value (`Option` for Python `None`). -/
structure Index where
  partition_key_name : String
  partition_key_format : FormatString
  sort_key_name : Option String
  sort_key_format : Option FormatString
  type : Option Int
  name : Option String
  composite_separator : Option Str
  is_primary : Bool
  is_global_secondary : Bool
  is_local_secondary : Bool
deriving DecidableEq

/-- Source attribute `partition_key_format_fields`. -/
def Index.partition_key_format_fields (idx : Index) : List String :=
  format_string_field_list (some idx.partition_key_format)

/-- Source attribute `sort_key_format_fields`. -/
def Index.sort_key_format_fields (idx : Index) : List String :=
  format_string_field_list idx.sort_key_format

/-- The errors `Index.__init__` can raise: `UnknownIndexTypeError` from
`__index_enum_to_bool`, and the `RuntimeError` (the spec's schema error) from
`__composite_separator`. -/
inductive ConstructionError where
  | unknownIndexType
  | separatorRule
deriving DecidableEq

deriving instance DecidableEq for Except

/-- Source `Index.__init__`: the checked constructor. The separator check
(`__composite_separator`, line 59) runs before the index-type check
(`__index_enum_to_bool`, line 61). `any((pff, sff))` in the source is the
truthiness of the two field lists, i.e. "some placeholder exists". -/
def mkIndex (partition_key_name : String) (partition_key_format : FormatString)
    (sort_key_name : Option String) (sort_key_format : Option FormatString)
    (index_type : Option Int) (name : Option String) (composite_separator : Option Str) :
    Except ConstructionError Index :=
  let pff := format_string_field_list (some partition_key_format)
  let sff := format_string_field_list sort_key_format
  if (pff ≠ [] ∨ sff ≠ []) ↔ composite_separator = none then
    .error .separatorRule
  else if index_type ∉ ([some 100, some 90, some 80] : List (Option Int)) ∨
      index_type = none then
    .error .unknownIndexType
  else
    .ok
      { partition_key_name := partition_key_name
        partition_key_format := partition_key_format
        sort_key_name := sort_key_name
        sort_key_format := sort_key_format
        type := index_type
        name := name
        composite_separator := composite_separator
        is_primary := decide (index_type = some 100)
        is_global_secondary := decide (index_type = some 90)
        is_local_secondary := decide (index_type = some 80) }

/-- Source `Index.partition_key_value`. -/
def Index.partition_key_value (idx : Index) (field_values : FieldValues) :
    Option (List (String × Str)) :=
  (formatValues idx.partition_key_format field_values).map
    (fun s => [(idx.partition_key_name, s)])

/-- Source `Index.sort_key_value`: empty dict when there is no sort-key name;
formatting a `None` sort-key format (name set, format absent) raises, modelled
as `none`. -/
def Index.sort_key_value (idx : Index) (field_values : FieldValues) :
    Option (List (String × Str)) :=
  match idx.sort_key_name with
  | none => some []
  | some skn =>
    match idx.sort_key_format with
    | none => none
    | some skf => (formatValues skf field_values).map (fun s => [(skn, s)])

/-- Source `Index.full_key`: partition key dict updated with the sort key dict. -/
def Index.full_key (idx : Index) (field_values : FieldValues) :
    Option (List (String × Str)) :=
  match idx.partition_key_value field_values with
  | none => none
  | some key =>
    match idx.sort_key_value field_values with
    | none => none
    | some sk => some (updateWith key sk)

/-- The partition unique-id bonus term of `query_score` (lines 180-187):
`200 * ((len - index) / len)` over the partition-key fields. -/
def partitionUidBonus (idx : Index) (u : String) : Frac :=
  Frac.mul (Frac.ofInt 200)
    (Frac.div
      (Frac.ofInt ((idx.partition_key_format_fields.length : Int) -
        (pyIndex u idx.partition_key_format_fields : Int)))
      (Frac.ofInt (idx.partition_key_format_fields.length : Int)))

/-- The sort unique-id bonus term of `query_score` (lines 201-205):
`100 * ((len - index) / len)` over the sort-key fields. -/
def sortUidBonus (idx : Index) (u : String) : Frac :=
  Frac.mul (Frac.ofInt 100)
    (Frac.div
      (Frac.ofInt ((idx.sort_key_format_fields.length : Int) -
        (pyIndex u idx.sort_key_format_fields : Int)))
      (Frac.ofInt (idx.sort_key_format_fields.length : Int)))

/-- Source `Index.query_score` (base_index.py lines 170-207), transcribed
branch for branch. Note line 200 divides the accumulated score (partition
bonus plus contiguity count), not the contiguity count alone. -/
def Index.query_score (idx : Index) (field_values : FieldValues)
    (unique_id_attribute_name : Option String) : Int :=
  let pff := idx.partition_key_format_fields
  if (ordered_intersection pff (keys field_values)).length < pff.length then
    pyRound (Frac.ofInt 0)
  else
    let score1 : Frac :=
      match unique_id_attribute_name with
      | none => Frac.ofInt 0
      | some u =>
        if u ∈ pff ∧ u ∈ keys field_values then partitionUidBonus idx u
        else Frac.ofInt 0
    let sff := idx.sort_key_format_fields
    if sff.length < 1 ∨ (ordered_intersection sff (keys field_values)).length < 1 then
      pyRound score1
    else
      let score2 := Frac.mul
        (Frac.div (Frac.add score1 (Frac.ofInt (contiguousCount sff field_values)))
          (Frac.ofInt (sff.length : Int)))
        (Frac.ofInt 100)
      let score3 :=
        match unique_id_attribute_name with
        | none => score2
        | some u =>
          if u ∈ sff ∧ u ∈ keys field_values then Frac.add score2 (sortUidBonus idx u)
          else score2
      pyRound score3

/-- Source `Index.get_sort_best_match` (lines 209-220): greedily render
literal-plus-value pairs; a segment whose field is absent (or is the trailing
`None` placeholder) contributes its literal and stops the walk. -/
def sortBestMatch : FormatString → FieldValues → Str
  | [], _ => []
  | ⟨lit, none⟩ :: _, _ => lit
  | ⟨lit, some f⟩ :: rest, field_values =>
    match lookupField field_values f with
    | some v => lit ++ v.toStr ++ sortBestMatch rest field_values
    | none => lit

/-- Python string whitespace stripped by `rstrip(None)` (ASCII portion). -/
def pyWhitespace : Str := [' ', '\t', '\n', '\r', Char.ofNat 11, Char.ofNat 12]

/-- Python `s.rstrip(chars)`; `chars = None` strips whitespace. -/
def pyRstrip (s : Str) (chars : Option Str) : Str :=
  let cs := chars.getD pyWhitespace
  (s.reverse.dropWhile (fun c => decide (c ∈ cs))).reverse

/-- Source `Index.get_condition_expression` (lines 222-242). -/
def Index.get_condition_expression (idx : Index) (field_values : FieldValues)
    (key_score : Int) (force_key_begins_with : Bool) : Option KeyCondition :=
  match formatValues idx.partition_key_format field_values with
  | none => none
  | some pkv =>
    let key := KeyCondition.eq (some idx.partition_key_name) pkv
    match idx.sort_key_format with
    | none => some key
    | some skf =>
      if key_score = 100 ∧ force_key_begins_with = false then
        match formatValues skf field_values with
        | none => none
        | some skv => some (key.and (.eq idx.sort_key_name skv))
      else
        let bm := sortBestMatch skf field_values
        let bm := if force_key_begins_with then pyRstrip bm idx.composite_separator else bm
        some (key.and (.beginsWith idx.sort_key_name bm))

/-- Source `CompositorTable`: the parts of its state the modelled operations
read. -/
structure CompositorTable where
  primary_index : Index
  secondary_indexes : List Index
  unique_id_attribute_name : Option String
deriving DecidableEq

/-- Primary-index query score, as computed at compositor_table.py lines 168-171. -/
def priScore (tbl : CompositorTable) (field_values : FieldValues) : Int :=
  tbl.primary_index.query_score field_values tbl.unique_id_attribute_name

/-- Secondary-index query scores, in declaration order (lines 173-180). -/
def secScores (tbl : CompositorTable) (field_values : FieldValues) : List Int :=
  tbl.secondary_indexes.map
    (fun index => index.query_score field_values tbl.unique_id_attribute_name)

/-- The query arguments built by `get_query_key_condition_expression`: an
optional `IndexName` entry and the `KeyConditionExpression`. -/
structure QueryArgs where
  index_name : Option (Option String)
  key_condition_expression : KeyCondition
deriving DecidableEq

/-- Source `CompositorTable.get_query_key_condition_expression` (lines
167-201): primary wins whenever its score is greater than or equal to all
secondary scores; otherwise the secondary at `scores.index(max(scores))`. -/
def get_query_key_condition_expression (tbl : CompositorTable)
    (field_values : FieldValues) (force_key_begins_with : Bool) : Option QueryArgs :=
  let primary_index_score := priScore tbl field_values
  let secondary_index_scores := secScores tbl field_values
  if ∀ x ∈ secondary_index_scores, x ≤ primary_index_score then
    (tbl.primary_index.get_condition_expression field_values primary_index_score
      force_key_begins_with).map (fun c => ⟨none, c⟩)
  else
    let m := listMax secondary_index_scores
    match tbl.secondary_indexes[pyIndexInt m secondary_index_scores]? with
    | none => none
    | some sec =>
      (sec.get_condition_expression field_values m force_key_begins_with).map
        (fun c => ⟨some sec.name, c⟩)

/-- Python `s.split(sep)[0]` for nonempty `sep`: the text before the first
occurrence of `sep` (all of `s` when `sep` does not occur). -/
def splitBeforeSep (sep : Str) : Str → Str
  | [] => []
  | c :: cs => if sep.isPrefixOf (c :: cs) then [] else c :: splitBeforeSep sep cs

/-- Worker for `reverse_format_string`, walking the parsed segments and the
remaining actual string, accumulating the dict built so far. An empty literal
on the segment after a placeholder makes Python's `split('')` raise ValueError,
modelled as `none`. -/
def reverseFormatAux (acc : List (String × Str)) :
    FormatString → Str → Option (List (String × Str))
  | [], _ => some acc
  | ⟨lit, none⟩ :: rest, s => reverseFormatAux acc rest (s.drop lit.length)
  | ⟨lit, some f⟩ :: rest, s =>
    let s1 := s.drop lit.length
    match rest with
    | [] => some (upsertStr acc f s1)
    | next :: _ =>
      if next.literal.isEmpty then none
      else
        let v := splitBeforeSep next.literal s1
        reverseFormatAux (upsertStr acc f v) rest (s1.drop v.length)

/-- Source `CompositorTable.reverse_format_string` (lines 233-247). -/
def reverse_format_string (actual_string : Str) (format_string : FormatString) :
    Option (List (String × Str)) :=
  reverseFormatAux [] format_string actual_string

/-- Per-index part of `CompositorTable.field_values_from_item_keys` for one
secondary index (lines 260-264; note the source guards the sort-key extraction
on `index.partition_key_name` being truthy, and indexing the item with a `None`
sort-key name raises, modelled as `none`). -/
def secondaryExtract (item : List (String × Str)) (fv : List (String × Str))
    (index : Index) : Option (List (String × Str)) := do
  let pks ← lookupStr item index.partition_key_name
  let r ← reverse_format_string pks index.partition_key_format
  let fv := updateWith fv r
  if index.partition_key_name ≠ "" then
    match index.sort_key_name with
    | none => none
    | some skn => do
      let sks ← lookupStr item skn
      match index.sort_key_format with
      | none => none
      | some skf => do
        let r2 ← reverse_format_string sks skf
        pure (updateWith fv r2)
  else
    pure fv

/-- Source `CompositorTable.field_values_from_item_keys` (lines 249-266). The
guard `if self.primary_index.sort_key_name:` (line 253) is Python truthiness,
so both an absent name and the empty name `""` skip the sort-key extraction. -/
def field_values_from_item_keys (tbl : CompositorTable) (item : List (String × Str)) :
    Option (List (String × Str)) := do
  let pks ← lookupStr item tbl.primary_index.partition_key_name
  let fv ← reverse_format_string pks tbl.primary_index.partition_key_format
  let fv ←
    match tbl.primary_index.sort_key_name with
    | none => pure fv
    | some skn =>
      if skn ≠ "" then do
        let sks ← lookupStr item skn
        match tbl.primary_index.sort_key_format with
        | none => none
        | some skf => do
          let r ← reverse_format_string sks skf
          pure (updateWith fv r)
      else pure fv
  tbl.secondary_indexes.foldlM (secondaryExtract item) fv

/-- All placeholder names of a format string, in order, duplicates kept. -/
def segFields (fmt : FormatString) : List String := fmt.filterMap (·.field)

/-- All characters of the literal segments of a format string. -/
def litChars (fmt : FormatString) : Str := (fmt.map (·.literal)).flatten

/-- A format string is well-separated when every placeholder that is not the
last segment is followed by a segment with a nonempty literal (so that
`reverse_format_string` never calls `split` with an empty separator). -/
def wellSeparated : FormatString → Bool
  | seg :: next :: rest =>
    (seg.field.isNone || !next.literal.isEmpty) && wellSeparated (next :: rest)
  | _ => true

/-- Specification-side description of the dict `reverse_format_string` builds
from a synthesized string: upsert, in segment order, each placeholder's
stringified value. -/
def applySegs (acc : List (String × Str)) : FormatString → FieldValues → List (String × Str)
  | [], _ => acc
  | ⟨_, none⟩ :: rest, field_values => applySegs acc rest field_values
  | ⟨_, some f⟩ :: rest, field_values =>
    match lookupField field_values f with
    | none => applySegs acc rest field_values
    | some v => applySegs (upsertStr acc f v.toStr) rest field_values

/-! Concrete instances used by counterexamples and witnesses. -/

/-- Scenario A of the spec: partition format `{tenant}`, sort format
`item:v{version}:{id}`, separator `:`. -/
def scenarioPartitionFormat : FormatString := [⟨[], some "tenant"⟩]

/-- Scenario A sort-key format, parsed. -/
def scenarioSortFormat : FormatString :=
  [⟨"item:v".data, some "version"⟩, ⟨":".data, some "id"⟩]

/-- Scenario A index. -/
def scenarioIndex : Index :=
  ⟨"pk", scenarioPartitionFormat, some "sk", some scenarioSortFormat,
    some 100, none, some ":".data, true, false, false⟩

/-- Scenario A values: tenant "T1", version 1, id "X". -/
def scenarioValues : FieldValues :=
  [("tenant", .str "T1".data), ("version", .int 1), ("id", .str "X".data)]

/-- An index whose unique-id field is its whole partition key (`{id}`), with a
one-field sort key (`{a}`). -/
def uidPartitionIndex : Index :=
  ⟨"pk", [⟨[], some "id"⟩], some "sk", some [⟨[], some "a"⟩],
    some 100, none, some ":".data, true, false, false⟩

/-- Values supplying both fields of `uidPartitionIndex`. -/
def uidPartitionValues : FieldValues := [("id", .str "x".data), ("a", .str "y".data)]

/-- An index whose unique-id field leads its sort key (`{id}:{b}`). -/
def uidSortIndex : Index :=
  ⟨"pk", [⟨[], some "t"⟩], some "sk", some [⟨[], some "id"⟩, ⟨":".data, some "b"⟩],
    some 100, none, some ":".data, true, false, false⟩

/-- Values supplying every field of `uidSortIndex`. -/
def uidSortValues : FieldValues :=
  [("t", .str "u".data), ("id", .str "v".data), ("b", .str "w".data)]

/-- An index with a three-field sort key `{a}:{b}:{c}`. -/
def gateIndex : Index :=
  ⟨"pk", [⟨"T:".data, some "a"⟩], some "sk",
    some [⟨[], some "a"⟩, ⟨":".data, some "b"⟩, ⟨":".data, some "c"⟩],
    some 100, none, some ":".data, true, false, false⟩

/-- Values supplying `a` and `c` but not `b`. -/
def gateValues : FieldValues := [("a", .str "1".data), ("c", .str "2".data)]

/-- A primary index scoring the same as `tieSecondary` on `tieValues`. -/
def tiePrimary : Index :=
  ⟨"ppk", [⟨"P:".data, some "a"⟩], none, none, some 100, none, some ":".data,
    true, false, false⟩

/-- A secondary index scoring the same as `tiePrimary` on `tieValues`. -/
def tieSecondary : Index :=
  ⟨"spk", [⟨"S:".data, some "a"⟩], none, none, some 90, some "gsi1", some ":".data,
    false, true, false⟩

/-- A table holding the two tied indexes. -/
def tieTable : CompositorTable := ⟨tiePrimary, [tieSecondary], none⟩

/-- Values both tied indexes fully match. -/
def tieValues : FieldValues := [("a", .str "x".data)]

/-- A partition-key format with two adjacent placeholders, `{a}{b}`. -/
def adjacentFormat : FormatString := [⟨[], some "a"⟩, ⟨[], some "b"⟩]

/-- An index using `adjacentFormat` (constructible: it has fields and a
separator). -/
def adjacentIndex : Index :=
  ⟨"pk", adjacentFormat, none, none, some 100, none, some ":".data,
    true, false, false⟩

/-- String values for `adjacentIndex` containing no literal characters at all. -/
def adjacentValues : FieldValues := [("a", .str "x".data), ("b", .str "y".data)]

/-- A well-separated index for the round-trip witness: partition `p:{a}`,
sort `s:{b}`. -/
def roundIndex : Index :=
  ⟨"pk", [⟨"p:".data, some "a"⟩], some "sk", some [⟨"s:".data, some "b"⟩],
    some 100, none, some ":".data, true, false, false⟩

/-- String values for `roundIndex` avoiding its literal characters. -/
def roundValues : FieldValues := [("a", .str "x".data), ("b", .str "y".data)]

/-! Helper lemmas. -/

/-- Key membership agrees with lookup success in a field-value map. -/
theorem mem_keys_iff_isSome (field_values : FieldValues) (k : String) :
    k ∈ keys field_values ↔ (lookupField field_values k).isSome = true := by
  induction field_values with
  | nil => simp [keys, lookupField]
  | cons p rest ih =>
    by_cases h : p.1 = k
    · simp [keys, lookupField, List.find?, h]
    · simp only [keys, List.map_cons, List.mem_cons, lookupField, List.find?,
        decide_eq_true_eq] at *
      simp [h, ih, lookupField, Ne.symm h]

/-- A key outside a field-value map looks up to `none`. -/
theorem lookupField_eq_none (field_values : FieldValues) (k : String)
    (h : k ∉ keys field_values) : lookupField field_values k = none := by
  have := (mem_keys_iff_isSome field_values k).not.mp h
  cases hl : lookupField field_values k with
  | none => rfl
  | some v => rw [hl] at this; simp at this

/-- A key of a field-value map looks up to some value. -/
theorem lookupField_isSome (field_values : FieldValues) (k : String)
    (h : k ∈ keys field_values) : ∃ v, lookupField field_values k = some v := by
  have := (mem_keys_iff_isSome field_values k).mp h
  cases hl : lookupField field_values k with
  | none => rw [hl] at this; simp at this
  | some v => exact ⟨v, rfl⟩

/-- Formatting fails when some placeholder's field is missing. -/
theorem formatValues_eq_none (fmt : FormatString) (field_values : FieldValues)
    (h : ∃ f ∈ segFields fmt, f ∉ keys field_values) :
    formatValues fmt field_values = none := by
  induction fmt with
  | nil => simp [segFields] at h
  | cons seg rest ih =>
    obtain ⟨f, hf, hmem⟩ := h
    obtain ⟨lit, fld⟩ := seg
    cases fld with
    | none =>
      have : f ∈ segFields rest := by
        simpa [segFields] using hf
      rw [show formatValues (⟨lit, none⟩ :: rest) field_values =
        (formatValues rest field_values).map (fun r => lit ++ r) from rfl,
        ih ⟨f, this, hmem⟩]
      rfl
    | some g =>
      by_cases hg : g = f
      · subst hg
        simp [formatValues, lookupField_eq_none field_values g hmem]
      · have : f ∈ segFields rest := by
          have h2 : f = g ∨ ∃ a ∈ rest, a.field = some f := by simpa [segFields] using hf
          rcases h2 with h1 | h1
          · exact absurd h1.symm hg
          · simpa [segFields] using h1
        cases hl : lookupField field_values g with
        | none => simp [formatValues, hl]
        | some v => simp [formatValues, hl, ih ⟨f, this, hmem⟩]

/-- Formatting with every placeholder's field present substitutes each
placeholder with the string conversion of its value. -/
theorem formatValues_covered (fmt : FormatString) (field_values : FieldValues)
    (h : ∀ f ∈ segFields fmt, f ∈ keys field_values) :
    formatValues fmt field_values =
      some ((fmt.map (fun seg =>
        seg.literal ++ (((seg.field.bind (lookupField field_values)).map
          FieldValue.toStr).getD []))).flatten) := by
  induction fmt with
  | nil => simp [formatValues]
  | cons seg rest ih =>
    obtain ⟨lit, fld⟩ := seg
    have hrest : ∀ f ∈ segFields rest, f ∈ keys field_values := by
      intro f hf
      refine h f ?_
      cases fld <;> simp [segFields] at hf ⊢ <;> simp [hf]
    cases fld with
    | none => simp [formatValues, ih hrest]
    | some g =>
      have hg : g ∈ keys field_values := by
        refine h g ?_
        simp [segFields]
      obtain ⟨v, hv⟩ := lookupField_isSome field_values g hg
      simp [formatValues, hv, ih hrest]

/-- C5: for an index whose sort-key template fields are `[a, b, c]` in order,
with all partition-key fields present, values containing `a` and `c` but not
`b` give a sort-key contiguous-match count of 1 (the count `query_score` adds
in its loop): counting stops at the first missing field. -/
theorem claim5_ordered_gate (idx : Index) (field_values : FieldValues) (a b c : String)
    (hsk : idx.sort_key_format_fields = [a, b, c])
    (hpk : ∀ f ∈ idx.partition_key_format_fields, f ∈ keys field_values)
    (ha : a ∈ keys field_values) (hb : b ∉ keys field_values)
    (hc : c ∈ keys field_values) :
    contiguousCount idx.sort_key_format_fields field_values = 1 := by
  rw [hsk]
  simp [contiguousCount, ha, hb]

/-- Witness for C5 at `gateIndex` and `gateValues`. -/
theorem claim5_witness :
    (gateIndex.sort_key_format_fields = ["a", "b", "c"] ∧
      (∀ f ∈ gateIndex.partition_key_format_fields, f ∈ keys gateValues) ∧
      "a" ∈ keys gateValues ∧ "b" ∉ keys gateValues ∧ "c" ∈ keys gateValues) ∧
    contiguousCount gateIndex.sort_key_format_fields gateValues = 1 :=
  ⟨by decide,
    claim5_ordered_gate gateIndex gateValues "a" "b" "c" (by decide) (by decide)
      (by decide) (by decide) (by decide)⟩

/-- C8: formatting the partition key fails (KeyError, the spec's
MissingFieldError) exactly when some placeholder's field is absent from the
value map; with every placeholder's field present it substitutes each
placeholder with the string conversion of its value (no defaults). -/
theorem claim8_missing_field (idx : Index) (field_values : FieldValues) :
    ((∃ f ∈ segFields idx.partition_key_format, f ∉ keys field_values) →
      idx.partition_key_value field_values = none) ∧
    ((∀ f ∈ segFields idx.partition_key_format, f ∈ keys field_values) →
      idx.partition_key_value field_values =
        some [(idx.partition_key_name,
          (idx.partition_key_format.map (fun seg =>
            seg.literal ++ (((seg.field.bind (lookupField field_values)).map
              FieldValue.toStr).getD []))).flatten)]) := by
  constructor
  · intro h
    unfold Index.partition_key_value
    rw [formatValues_eq_none idx.partition_key_format field_values h]
    rfl
  · intro h
    unfold Index.partition_key_value
    rw [formatValues_covered idx.partition_key_format field_values h]
    rfl

/-- Witness for C8 at `scenarioIndex` and `scenarioValues` (covered side). -/
theorem claim8_witness :
    (∀ f ∈ segFields scenarioIndex.partition_key_format, f ∈ keys scenarioValues) ∧
    scenarioIndex.partition_key_value scenarioValues = some [("pk", "T1".data)] :=
  ⟨by decide,
    ((claim8_missing_field scenarioIndex scenarioValues).2 (by decide)).trans (by decide)⟩

/-- C9: construction fails with the separator schema error exactly when the
separator is required (a partition or sort template has at least one
placeholder, per the spec's error taxonomy) but absent, or supplied when not
required. -/
theorem claim9_separator_rule (partition_key_name : String)
    (partition_key_format : FormatString) (sort_key_name : Option String)
    (sort_key_format : Option FormatString) (index_type : Option Int)
    (name : Option String) (composite_separator : Option Str) :
    mkIndex partition_key_name partition_key_format sort_key_name sort_key_format
        index_type name composite_separator = .error .separatorRule ↔
      (((format_string_field_list (some partition_key_format) ≠ [] ∨
          format_string_field_list sort_key_format ≠ []) ∧ composite_separator = none) ∨
        (¬(format_string_field_list (some partition_key_format) ≠ [] ∨
          format_string_field_list sort_key_format ≠ []) ∧ composite_separator ≠ none)) := by
  unfold mkIndex
  by_cases h : ((format_string_field_list (some partition_key_format) ≠ [] ∨
      format_string_field_list sort_key_format ≠ []) ↔ composite_separator = none)
  · rw [if_pos h]
    constructor
    · intro _
      tauto
    · intro _
      rfl
  · rw [if_neg h]
    constructor
    · intro hcontra
      by_cases ht : (index_type ∉ ([some 100, some 90, some 80] : List (Option Int)) ∨
          index_type = none)
      · rw [if_pos ht] at hcontra
        exact ConstructionError.noConfusion (Except.error.inj hcontra)
      · rw [if_neg ht] at hcontra
        exact Except.noConfusion hcontra
    · intro hr
      exfalso
      tauto

/-- C10: a successfully constructed index has exactly one of the three role
flags set, matching its type; an absent or unrecognized role never yields an
instance, and (when the separator rule is satisfied) fails with the
unknown-index-type error. -/
theorem claim10_flags (partition_key_name : String)
    (partition_key_format : FormatString) (sort_key_name : Option String)
    (sort_key_format : Option FormatString) (index_type : Option Int)
    (name : Option String) (composite_separator : Option Str) :
    (∀ idx, mkIndex partition_key_name partition_key_format sort_key_name
        sort_key_format index_type name composite_separator = .ok idx →
      ((idx.is_primary = true ∧ idx.is_global_secondary = false ∧
          idx.is_local_secondary = false) ∨
        (idx.is_primary = false ∧ idx.is_global_secondary = true ∧
          idx.is_local_secondary = false) ∨
        (idx.is_primary = false ∧ idx.is_global_secondary = false ∧
          idx.is_local_secondary = true)) ∧
      (idx.is_primary = true ↔ idx.type = some 100) ∧
      (idx.is_global_secondary = true ↔ idx.type = some 90) ∧
      (idx.is_local_secondary = true ↔ idx.type = some 80)) ∧
    (index_type ∉ ([some 100, some 90, some 80] : List (Option Int)) →
      (∀ idx, mkIndex partition_key_name partition_key_format sort_key_name
        sort_key_format index_type name composite_separator ≠ .ok idx) ∧
      (¬((format_string_field_list (some partition_key_format) ≠ [] ∨
          format_string_field_list sort_key_format ≠ []) ↔ composite_separator = none) →
        mkIndex partition_key_name partition_key_format sort_key_name
          sort_key_format index_type name composite_separator =
            .error .unknownIndexType)) := by
  constructor
  · intro idx hok
    unfold mkIndex at hok
    by_cases h : ((format_string_field_list (some partition_key_format) ≠ [] ∨
        format_string_field_list sort_key_format ≠ []) ↔ composite_separator = none)
    · rw [if_pos h] at hok
      exact Except.noConfusion hok
    · rw [if_neg h] at hok
      by_cases ht : (index_type ∉ ([some 100, some 90, some 80] : List (Option Int)) ∨
          index_type = none)
      · rw [if_pos ht] at hok
        exact Except.noConfusion hok
      · rw [if_neg ht] at hok
        have hidx := (Except.ok.inj hok).symm
        subst hidx
        push_neg at ht
        have hmem : index_type = some 100 ∨ index_type = some 90 ∨ index_type = some 80 := by
          simpa using ht.1
        rcases hmem with h1 | h1 | h1 <;> subst h1 <;> simp
  · intro hbad
    have htcond : (index_type ∉ ([some 100, some 90, some 80] : List (Option Int)) ∨
        index_type = none) := Or.inl hbad
    constructor
    · intro idx hok
      unfold mkIndex at hok
      by_cases h : ((format_string_field_list (some partition_key_format) ≠ [] ∨
          format_string_field_list sort_key_format ≠ []) ↔ composite_separator = none)
      · rw [if_pos h] at hok
        exact Except.noConfusion hok
      · rw [if_neg h, if_pos htcond] at hok
        exact Except.noConfusion hok
    · intro hsep
      unfold mkIndex
      rw [if_neg hsep, if_pos htcond]

/-- Witness for C10: a global-secondary construction. -/
theorem claim10_witness :
    (mkIndex "spk" [⟨"S:".data, some "a"⟩] none none (some 90) (some "gsi1")
        (some ":".data) = .ok tieSecondary) ∧
    (((tieSecondary.is_primary = true ∧ tieSecondary.is_global_secondary = false ∧
        tieSecondary.is_local_secondary = false) ∨
      (tieSecondary.is_primary = false ∧ tieSecondary.is_global_secondary = true ∧
        tieSecondary.is_local_secondary = false) ∨
      (tieSecondary.is_primary = false ∧ tieSecondary.is_global_secondary = false ∧
        tieSecondary.is_local_secondary = true)) ∧
      (tieSecondary.is_primary = true ↔ tieSecondary.type = some 100) ∧
      (tieSecondary.is_global_secondary = true ↔ tieSecondary.type = some 90) ∧
      (tieSecondary.is_local_secondary = true ↔ tieSecondary.type = some 80)) :=
  ⟨by decide,
    (claim10_flags "spk" [⟨"S:".data, some "a"⟩] none none (some 90) (some "gsi1")
      (some ":".data)).1 tieSecondary (by decide)⟩

/-- pyIndex never exceeds the list length. -/
theorem pyIndex_le_length (x : String) (l : List String) : pyIndex x l ≤ l.length := by
  induction l with
  | nil => simp [pyIndex]
  | cons y ys ih =>
    by_cases h : y = x <;> simp [pyIndex, h] <;> omega

/-- Rounding a nonnegative fraction (positive denominator) is nonnegative. -/
theorem pyRound_nonneg (q : Frac) (hn : 0 ≤ q.num) (hd : 0 < q.den) :
    0 ≤ pyRound q := by
  have hf : 0 ≤ q.num.fdiv q.den := Int.fdiv_nonneg hn hd.le
  simp only [pyRound]
  split_ifs <;> omega

/-- The partition unique-id bonus is a nonnegative fraction. -/
theorem partitionUidBonus_nonneg (idx : Index) (u : String)
    (h : u ∈ idx.partition_key_format_fields) :
    0 ≤ (partitionUidBonus idx u).num ∧ 0 < (partitionUidBonus idx u).den := by
  have hlen : 0 < idx.partition_key_format_fields.length :=
    List.length_pos.mpr (List.ne_nil_of_mem h)
  have hle := pyIndex_le_length u idx.partition_key_format_fields
  unfold partitionUidBonus
  refine ⟨?_, ?_⟩
  · show (0:Int) ≤ 200 * (((idx.partition_key_format_fields.length : Int) -
      (pyIndex u idx.partition_key_format_fields : Int)) * 1)
    have hle2 : (pyIndex u idx.partition_key_format_fields : Int) ≤
        (idx.partition_key_format_fields.length : Int) := by exact_mod_cast hle
    nlinarith
  · show (0:Int) < 1 * (1 * (idx.partition_key_format_fields.length : Int))
    have : (0:Int) < (idx.partition_key_format_fields.length : Int) := by
      exact_mod_cast hlen
    nlinarith

/-- The sort unique-id bonus is a nonnegative fraction. -/
theorem sortUidBonus_nonneg (idx : Index) (u : String)
    (h : u ∈ idx.sort_key_format_fields) :
    0 ≤ (sortUidBonus idx u).num ∧ 0 < (sortUidBonus idx u).den := by
  have hlen : 0 < idx.sort_key_format_fields.length :=
    List.length_pos.mpr (List.ne_nil_of_mem h)
  have hle := pyIndex_le_length u idx.sort_key_format_fields
  unfold sortUidBonus
  refine ⟨?_, ?_⟩
  · show (0:Int) ≤ 100 * (((idx.sort_key_format_fields.length : Int) -
      (pyIndex u idx.sort_key_format_fields : Int)) * 1)
    have hle2 : (pyIndex u idx.sort_key_format_fields : Int) ≤
        (idx.sort_key_format_fields.length : Int) := by exact_mod_cast hle
    nlinarith
  · show (0:Int) < 1 * (1 * (idx.sort_key_format_fields.length : Int))
    have : (0:Int) < (idx.sort_key_format_fields.length : Int) := by
      exact_mod_cast hlen
    nlinarith

/-- Nonnegativity composes through addition. -/
theorem frac_add_nonneg {a b : Frac} (ha : 0 ≤ a.num ∧ 0 < a.den)
    (hb : 0 ≤ b.num ∧ 0 < b.den) :
    0 ≤ (Frac.add a b).num ∧ 0 < (Frac.add a b).den :=
  ⟨add_nonneg (mul_nonneg ha.1 hb.2.le) (mul_nonneg hb.1 ha.2.le),
    mul_pos ha.2 hb.2⟩

/-- Nonnegativity composes through multiplication. -/
theorem frac_mul_nonneg {a b : Frac} (ha : 0 ≤ a.num ∧ 0 < a.den)
    (hb : 0 ≤ b.num ∧ 0 < b.den) :
    0 ≤ (Frac.mul a b).num ∧ 0 < (Frac.mul a b).den :=
  ⟨mul_nonneg ha.1 hb.1, mul_pos ha.2 hb.2⟩

/-- Nonnegativity composes through division by a positive fraction. -/
theorem frac_div_nonneg {a b : Frac} (ha : 0 ≤ a.num ∧ 0 < a.den)
    (hb : 0 < b.num ∧ 0 < b.den) :
    0 ≤ (Frac.div a b).num ∧ 0 < (Frac.div a b).den :=
  ⟨mul_nonneg ha.1 hb.2.le, mul_pos ha.2 hb.1⟩

/-- An embedded nonnegative integer is a nonnegative fraction. -/
theorem frac_ofInt_nonneg {n : Int} (h : 0 ≤ n) :
    0 ≤ (Frac.ofInt n).num ∧ 0 < (Frac.ofInt n).den :=
  ⟨h, Int.zero_lt_one⟩

/-- An embedded positive integer is a positive fraction. -/
theorem frac_ofInt_pos {n : Int} (h : 0 < n) :
    0 < (Frac.ofInt n).num ∧ 0 < (Frac.ofInt n).den :=
  ⟨h, Int.zero_lt_one⟩

/-- C3, corrected: `query_score` always returns a nonnegative integer (it is
not bounded above by 100, see the counterexample). -/
theorem claim3_amended_nonneg (idx : Index) (field_values : FieldValues)
    (unique_id_attribute_name : Option String) :
    0 ≤ idx.query_score field_values unique_id_attribute_name := by
  have hz : (0:Int) ≤ pyRound (Frac.ofInt 0) := by decide
  have hcast : (0:Int) ≤ (contiguousCount idx.sort_key_format_fields field_values : Int) :=
    Int.natCast_nonneg _
  cases unique_id_attribute_name with
  | none =>
    by_cases hg1 : (ordered_intersection idx.partition_key_format_fields
        (keys field_values)).length < idx.partition_key_format_fields.length
    · simp only [Index.query_score, if_pos hg1]
      exact hz
    · by_cases hg2 : idx.sort_key_format_fields.length < 1 ∨
          (ordered_intersection idx.sort_key_format_fields (keys field_values)).length < 1
      · simp only [Index.query_score, if_neg hg1, if_pos hg2]
        exact hz
      · simp only [Index.query_score, if_neg hg1, if_neg hg2]
        have hm : (0:Int) < (idx.sort_key_format_fields.length : Int) := by
          rw [not_or] at hg2
          omega
        have h2 := frac_mul_nonneg
          (frac_div_nonneg
            (frac_add_nonneg (frac_ofInt_nonneg (le_refl (0:Int))) (frac_ofInt_nonneg hcast))
            (frac_ofInt_pos hm))
          (frac_ofInt_nonneg (show (0:Int) ≤ 100 by norm_num))
        exact pyRound_nonneg _ h2.1 h2.2
  | some u =>
    by_cases hg1 : (ordered_intersection idx.partition_key_format_fields
        (keys field_values)).length < idx.partition_key_format_fields.length
    · simp only [Index.query_score, if_pos hg1]
      exact hz
    · by_cases hg2 : idx.sort_key_format_fields.length < 1 ∨
          (ordered_intersection idx.sort_key_format_fields (keys field_values)).length < 1
      · by_cases hu1 : u ∈ idx.partition_key_format_fields ∧ u ∈ keys field_values
        · simp only [Index.query_score, if_neg hg1, if_pos hu1, if_pos hg2]
          exact pyRound_nonneg _ (partitionUidBonus_nonneg idx u hu1.1).1
            (partitionUidBonus_nonneg idx u hu1.1).2
        · simp only [Index.query_score, if_neg hg1, if_neg hu1, if_pos hg2]
          exact hz
      · have hm : (0:Int) < (idx.sort_key_format_fields.length : Int) := by
          rw [not_or] at hg2
          omega
        have hbase : ∀ b : Frac, 0 ≤ b.num ∧ 0 < b.den →
            0 ≤ (Frac.mul (Frac.div (Frac.add b (Frac.ofInt
              (contiguousCount idx.sort_key_format_fields field_values)))
              (Frac.ofInt (idx.sort_key_format_fields.length : Int)))
              (Frac.ofInt 100)).num ∧
            0 < (Frac.mul (Frac.div (Frac.add b (Frac.ofInt
              (contiguousCount idx.sort_key_format_fields field_values)))
              (Frac.ofInt (idx.sort_key_format_fields.length : Int)))
              (Frac.ofInt 100)).den := by
          intro b hb
          exact frac_mul_nonneg
            (frac_div_nonneg (frac_add_nonneg hb (frac_ofInt_nonneg hcast))
              (frac_ofInt_pos hm))
            (frac_ofInt_nonneg (show (0:Int) ≤ 100 by norm_num))
        by_cases hu1 : u ∈ idx.partition_key_format_fields ∧ u ∈ keys field_values
        · by_cases hu2 : u ∈ idx.sort_key_format_fields ∧ u ∈ keys field_values
          · simp only [Index.query_score, if_neg hg1, if_pos hu1, if_neg hg2, if_pos hu2]
            have h3 := frac_add_nonneg (hbase _ (partitionUidBonus_nonneg idx u hu1.1))
              (sortUidBonus_nonneg idx u hu2.1)
            exact pyRound_nonneg _ h3.1 h3.2
          · simp only [Index.query_score, if_neg hg1, if_pos hu1, if_neg hg2, if_neg hu2]
            have h3 := hbase _ (partitionUidBonus_nonneg idx u hu1.1)
            exact pyRound_nonneg _ h3.1 h3.2
        · by_cases hu2 : u ∈ idx.sort_key_format_fields ∧ u ∈ keys field_values
          · simp only [Index.query_score, if_neg hg1, if_neg hu1, if_neg hg2, if_pos hu2]
            have h3 := frac_add_nonneg (hbase _ (frac_ofInt_nonneg (le_refl (0:Int))))
              (sortUidBonus_nonneg idx u hu2.1)
            exact pyRound_nonneg _ h3.1 h3.2
          · simp only [Index.query_score, if_neg hg1, if_neg hu1, if_neg hg2, if_neg hu2]
            have h3 := hbase _ (frac_ofInt_nonneg (le_refl (0:Int)))
            exact pyRound_nonneg _ h3.1 h3.2

/-- C3 counterexample: with the unique-id field leading the sort key,
`query_score` returns 200, outside the claimed range [0, 100]. -/
theorem claim3_counterexample :
    uidSortIndex.query_score uidSortValues (some "id") = 200 ∧
    ¬(uidSortIndex.query_score uidSortValues (some "id") ≤ 100) := by decide

/-- Filtering by membership keeps a list whose members are all present. -/
theorem ordered_intersection_of_subset (l ml : List String)
    (h : ∀ f ∈ l, f ∈ ml) : ordered_intersection l ml = l :=
  List.filter_eq_self.mpr (fun a ha => by simpa using h a ha)

/-- C2, corrected: in the sort-key branch, `query_score` returns
round((P + C) / totalSortFields * 100 + B) — the normalization step divides
the accumulated score (partition unique-id bonus P plus contiguity count C),
it does not replace P. -/
theorem claim2_amended_formula (idx : Index) (field_values : FieldValues)
    (unique_id_attribute_name : Option String)
    (hpk : ∀ f ∈ idx.partition_key_format_fields, f ∈ keys field_values)
    (hsk : idx.sort_key_format_fields ≠ [])
    (hone : ∃ f ∈ idx.sort_key_format_fields, f ∈ keys field_values) :
    idx.query_score field_values unique_id_attribute_name =
      pyRound
        (match unique_id_attribute_name with
         | none =>
            Frac.mul (Frac.div (Frac.add (Frac.ofInt 0)
              (Frac.ofInt (contiguousCount idx.sort_key_format_fields field_values)))
              (Frac.ofInt (idx.sort_key_format_fields.length : Int))) (Frac.ofInt 100)
         | some u =>
            let base := if u ∈ idx.partition_key_format_fields ∧ u ∈ keys field_values
              then partitionUidBonus idx u else Frac.ofInt 0
            let normalized := Frac.mul (Frac.div (Frac.add base
              (Frac.ofInt (contiguousCount idx.sort_key_format_fields field_values)))
              (Frac.ofInt (idx.sort_key_format_fields.length : Int))) (Frac.ofInt 100)
            if u ∈ idx.sort_key_format_fields ∧ u ∈ keys field_values
              then Frac.add normalized (sortUidBonus idx u) else normalized) := by
  have hg1 : ¬(ordered_intersection idx.partition_key_format_fields
      (keys field_values)).length < idx.partition_key_format_fields.length := by
    rw [ordered_intersection_of_subset _ _ hpk]
    omega
  have hg2 : ¬(idx.sort_key_format_fields.length < 1 ∨
      (ordered_intersection idx.sort_key_format_fields (keys field_values)).length < 1) := by
    rw [not_or]
    constructor
    · have := List.length_pos.mpr hsk
      omega
    · obtain ⟨f, hf, hm⟩ := hone
      have hmem : f ∈ ordered_intersection idx.sort_key_format_fields (keys field_values) :=
        List.mem_filter.mpr ⟨hf, by simpa using hm⟩
      have := List.length_pos.mpr (List.ne_nil_of_mem hmem)
      omega
  cases unique_id_attribute_name with
  | none => simp only [Index.query_score, if_neg hg1, if_neg hg2]
  | some u => simp only [Index.query_score, if_neg hg1, if_neg hg2]

/-- C2 counterexample: with the unique-id field being the whole partition key,
the partition bonus of 200 is divided by the sort field count and scaled, so
`query_score` returns 20100 where the claim's formula predicts 100. -/
theorem claim2_counterexample :
    uidPartitionIndex.query_score uidPartitionValues (some "id") = 20100 ∧
    uidPartitionIndex.query_score uidPartitionValues (some "id") ≠ 100 := by decide

/-- Witness for C2 (amended) at `uidPartitionIndex` and `uidPartitionValues`. -/
theorem claim2_witness :
    ((∀ f ∈ uidPartitionIndex.partition_key_format_fields, f ∈ keys uidPartitionValues) ∧
      uidPartitionIndex.sort_key_format_fields ≠ [] ∧
      (∃ f ∈ uidPartitionIndex.sort_key_format_fields, f ∈ keys uidPartitionValues)) ∧
    uidPartitionIndex.query_score uidPartitionValues (some "id") = 20100 :=
  ⟨⟨by decide, by decide, by decide⟩,
    (claim2_amended_formula uidPartitionIndex uidPartitionValues (some "id")
      (by decide) (by decide) (by decide)).trans (by decide)⟩

/-- C4 counterexample: on scenario A, `query_score` with unique-id field `id`
does not return 100 (the sort unique-id bonus pushes it to 150). -/
theorem claim4_counterexample :
    scenarioIndex.query_score scenarioValues (some "id") ≠ 100 := by decide

/-- C4, corrected: scenario A synthesizes pk "T1" and sk "item:v1:X" as
claimed, but `query_score` with unique-id field `id` returns 150, not 100. -/
theorem claim4_amended_scenario :
    scenarioIndex.full_key scenarioValues =
      some [("pk", "T1".data), ("sk", "item:v1:X".data)] ∧
    scenarioIndex.query_score scenarioValues (some "id") = 150 := by decide

/-- C6: with all partition-key fields present, the condition expression is
partition equality alone (no sort-key format), partition AND sort equality
(score 100, not forced), or partition equality AND begins-with the best
prefix, trimmed of trailing separator characters when forced. -/
theorem claim6_condition_expression (idx : Index) (field_values : FieldValues)
    (key_score : Int) (force_key_begins_with : Bool) (pkv : Str)
    (hp : formatValues idx.partition_key_format field_values = some pkv) :
    (idx.sort_key_format = none →
      idx.get_condition_expression field_values key_score force_key_begins_with =
        some (.eq (some idx.partition_key_name) pkv)) ∧
    (∀ skf skv, idx.sort_key_format = some skf →
      formatValues skf field_values = some skv →
      key_score = 100 → force_key_begins_with = false →
      idx.get_condition_expression field_values key_score force_key_begins_with =
        some (.and (.eq (some idx.partition_key_name) pkv)
          (.eq idx.sort_key_name skv))) ∧
    (∀ skf, idx.sort_key_format = some skf →
      (key_score ≠ 100 ∨ force_key_begins_with = true) →
      idx.get_condition_expression field_values key_score force_key_begins_with =
        some (.and (.eq (some idx.partition_key_name) pkv)
          (.beginsWith idx.sort_key_name
            (if force_key_begins_with
              then pyRstrip (sortBestMatch skf field_values) idx.composite_separator
              else sortBestMatch skf field_values)))) := by
  refine ⟨?_, ?_, ?_⟩
  · intro h
    simp only [Index.get_condition_expression, hp, h]
  · intro skf skv hskf hskv h100 hforce
    subst h100
    subst hforce
    simp only [Index.get_condition_expression, hp, hskf, hskv, and_self, if_pos, if_true]
  · intro skf hskf hor
    have hcond : ¬(key_score = 100 ∧ force_key_begins_with = false) := by
      rcases hor with h | h
      · exact fun hc => h hc.1
      · exact fun hc => by rw [h] at hc; exact Bool.noConfusion hc.2
    simp only [Index.get_condition_expression, hp, hskf, if_neg hcond]

/-- Witness for C6 at scenario A with score 50 and forced begins-with. -/
theorem claim6_witness :
    formatValues scenarioIndex.partition_key_format scenarioValues = some "T1".data ∧
    scenarioIndex.get_condition_expression scenarioValues 50 true =
      some (.and (.eq (some "pk") "T1".data)
        (.beginsWith (some "sk") "item:v1:X".data)) :=
  ⟨by decide,
    ((claim6_condition_expression scenarioIndex scenarioValues 50 true "T1".data
      (by decide)).2.2 scenarioSortFormat rfl (Or.inl (by decide))).trans (by decide)⟩

/-- Every initial value is below a fold of max, and so is every element. -/
theorem foldl_max_facts (xs : List Int) (a : Int) :
    a ≤ xs.foldl max a ∧ ∀ x ∈ xs, x ≤ xs.foldl max a := by
  induction xs generalizing a with
  | nil => exact ⟨le_rfl, by simp⟩
  | cons y ys ih =>
    have h := ih (max a y)
    refine ⟨le_trans (le_max_left a y) h.1, ?_⟩
    intro x hx
    rcases List.mem_cons.mp hx with rfl | hx2
    · exact le_trans (le_max_right a x) h.1
    · exact h.2 x hx2

/-- A fold of max is the initial value or a member. -/
theorem foldl_max_mem (xs : List Int) (a : Int) :
    xs.foldl max a = a ∨ xs.foldl max a ∈ xs := by
  induction xs generalizing a with
  | nil => exact Or.inl rfl
  | cons y ys ih =>
    rcases ih (max a y) with h | h
    · rcases max_choice a y with hm | hm
      · exact Or.inl (by simpa [hm] using h)
      · refine Or.inr (List.mem_cons.mpr (Or.inl ?_))
        simpa [hm] using h
    · exact Or.inr (List.mem_cons.mpr (Or.inr (by simpa using h)))

/-- listMax of a nonempty list is a member. -/
theorem listMax_mem (l : List Int) (h : l ≠ []) : listMax l ∈ l := by
  cases l with
  | nil => exact absurd rfl h
  | cons x xs =>
    rcases foldl_max_mem xs x with h1 | h1
    · rw [listMax, h1]
      exact List.mem_cons_self x xs
    · exact List.mem_cons.mpr (Or.inr h1)

/-- Every member is at most listMax. -/
theorem le_listMax (l : List Int) (x : Int) (h : x ∈ l) : x ≤ listMax l := by
  cases l with
  | nil => simp at h
  | cons y ys =>
    rcases List.mem_cons.mp h with rfl | h2
    · exact (foldl_max_facts ys x).1
    · exact (foldl_max_facts ys y).2 x h2

/-- pyIndexInt finds its argument. -/
theorem pyIndexInt_get (x : Int) (l : List Int) (h : x ∈ l) :
    l[pyIndexInt x l]? = some x := by
  induction l with
  | nil => simp at h
  | cons y ys ih =>
    by_cases hy : y = x
    · simp [pyIndexInt, hy]
    · have h2 : x ∈ ys := by
        rcases List.mem_cons.mp h with rfl | h2
        · exact absurd rfl hy
        · exact h2
      simp [pyIndexInt, hy, ih h2]

/-- pyIndexInt is the first occurrence. -/
theorem pyIndexInt_min (x : Int) (l : List Int) :
    ∀ i, i < pyIndexInt x l → l[i]? ≠ some x := by
  induction l with
  | nil =>
    intro i h
    simp [pyIndexInt] at h
  | cons y ys ih =>
    intro i h
    by_cases hy : y = x
    · simp [pyIndexInt, hy] at h
    · rw [pyIndexInt, if_neg hy] at h
      cases i with
      | zero =>
        simp only [List.getElem?_cons_zero]
        exact fun hc => hy (Option.some.inj hc)
      | succ j =>
        simp only [List.getElem?_cons_succ]
        exact ih j (by omega)

/-- pyIndexInt of a member is within bounds. -/
theorem pyIndexInt_lt_length (x : Int) (l : List Int) (h : x ∈ l) :
    pyIndexInt x l < l.length := by
  induction l with
  | nil => simp at h
  | cons y ys ih =>
    by_cases hy : y = x
    · simp [pyIndexInt, hy]
    · have h2 : x ∈ ys := by
        rcases List.mem_cons.mp h with rfl | h2
        · exact absurd rfl hy
        · exact h2
      have := ih h2
      simp [pyIndexInt, hy]
      omega

/-- C1: the query routing uses the primary index (no index name emitted)
whenever its score is greater than or equal to every secondary score, ties
included; otherwise it uses the first-declared secondary attaining the
maximum secondary score, emitting its name and its range condition at that
score. -/
theorem claim1_index_selection (tbl : CompositorTable) (field_values : FieldValues)
    (force_key_begins_with : Bool) :
    ((∀ x ∈ secScores tbl field_values, x ≤ priScore tbl field_values) →
      get_query_key_condition_expression tbl field_values force_key_begins_with =
        (tbl.primary_index.get_condition_expression field_values
          (priScore tbl field_values) force_key_begins_with).map
            (fun c => ⟨none, c⟩)) ∧
    (¬(∀ x ∈ secScores tbl field_values, x ≤ priScore tbl field_values) →
      ∃ (j : Nat) (sec : Index),
        tbl.secondary_indexes[j]? = some sec ∧
        (secScores tbl field_values)[j]? =
          some (listMax (secScores tbl field_values)) ∧
        (∀ i x, i < j → (secScores tbl field_values)[i]? = some x →
          x < listMax (secScores tbl field_values)) ∧
        (∀ x ∈ secScores tbl field_values,
          x ≤ listMax (secScores tbl field_values)) ∧
        get_query_key_condition_expression tbl field_values force_key_begins_with =
          (sec.get_condition_expression field_values
            (listMax (secScores tbl field_values)) force_key_begins_with).map
              (fun c => ⟨some sec.name, c⟩)) := by
  constructor
  · intro hall
    simp only [get_query_key_condition_expression]
    rw [if_pos hall]
  · intro hnot
    have hne : secScores tbl field_values ≠ [] := by
      intro h
      exact hnot (by rw [h]; simp)
    have hmem : listMax (secScores tbl field_values) ∈ secScores tbl field_values :=
      listMax_mem _ hne
    have hjlt : pyIndexInt (listMax (secScores tbl field_values))
        (secScores tbl field_values) < (secScores tbl field_values).length :=
      pyIndexInt_lt_length _ _ hmem
    have hlen : (secScores tbl field_values).length = tbl.secondary_indexes.length := by
      simp [secScores]
    cases hsec : tbl.secondary_indexes[pyIndexInt
        (listMax (secScores tbl field_values)) (secScores tbl field_values)]? with
    | none =>
      rw [List.getElem?_eq_none_iff] at hsec
      omega
    | some sec =>
      refine ⟨pyIndexInt (listMax (secScores tbl field_values))
        (secScores tbl field_values), sec, hsec, pyIndexInt_get _ _ hmem, ?_, ?_, ?_⟩
      · intro i x hij hget
        have hxmem : x ∈ secScores tbl field_values := List.getElem?_mem hget
        have hle := le_listMax _ x hxmem
        have hnex := pyIndexInt_min (listMax (secScores tbl field_values))
          (secScores tbl field_values) i hij
        rcases lt_or_eq_of_le hle with h | h
        · exact h
        · exact absurd (h ▸ hget) hnex
      · exact fun x hx => le_listMax _ x hx
      · simp only [get_query_key_condition_expression]
        rw [if_neg hnot, hsec]

/-- Witness for C1 at the tied table: the primary wins and no index name is
emitted. -/
theorem claim1_witness :
    (∀ x ∈ secScores tieTable tieValues, x ≤ priScore tieTable tieValues) ∧
    get_query_key_condition_expression tieTable tieValues false =
      some ⟨none, .eq (some "ppk") "P:x".data⟩ :=
  ⟨by decide,
    ((claim1_index_selection tieTable tieValues false).1 (by decide)).trans (by decide)⟩

/-- A list is a Boolean prefix of itself followed by anything. -/
theorem isPrefixOf_self_append (sep t : Str) : sep.isPrefixOf (sep ++ t) = true := by
  induction sep with
  | nil => simp [List.isPrefixOf]
  | cons h s ih => simp [List.isPrefixOf, ih]

/-- Key membership agrees with lookup success in a string-valued map. -/
theorem mem_keysStr_iff_isSome (m : List (String × Str)) (k : String) :
    k ∈ m.map (·.1) ↔ (lookupStr m k).isSome = true := by
  induction m with
  | nil => simp [lookupStr]
  | cons p rest ih =>
    by_cases h : p.1 = k
    · simp [lookupStr, List.find?, h]
    · simp only [List.map_cons, List.mem_cons, lookupStr, List.find?,
        decide_eq_true_eq] at *
      simp [h, ih, lookupStr, Ne.symm h]

/-- Python `split(sep)[0]` recovers the text before a separator when that text
avoids the separator's characters. -/
theorem splitBeforeSep_append (sep v t : Str) (hne : sep ≠ [])
    (hv : ∀ c ∈ v, c ∉ sep) : splitBeforeSep sep (v ++ (sep ++ t)) = v := by
  induction v with
  | nil =>
    cases sep with
    | nil => exact absurd rfl hne
    | cons h s =>
      show splitBeforeSep (h :: s) ((h :: s) ++ t) = []
      rw [List.cons_append]
      rw [splitBeforeSep, if_pos]
      rw [← List.cons_append]
      exact isPrefixOf_self_append (h :: s) t
  | cons c v' ih =>
    have hc : c ∉ sep := hv c (List.mem_cons_self c v')
    rw [List.cons_append, splitBeforeSep, if_neg,
      ih (fun x hx => hv x (List.mem_cons_of_mem c hx))]
    intro hpre
    cases hsep2 : sep with
    | nil => exact hne hsep2
    | cons h s =>
      rw [hsep2] at hpre
      simp only [List.isPrefixOf, Bool.and_eq_true, beq_iff_eq] at hpre
      rw [hsep2] at hc
      exact hc (List.mem_cons.mpr (Or.inl hpre.1.symm))

/-- Formatting a literal-only head segment prepends the literal. -/
theorem formatValues_cons_none {lit : Str} {rest : FormatString}
    {field_values : FieldValues} {out : Str}
    (h : formatValues (⟨lit, none⟩ :: rest) field_values = some out) :
    ∃ out', formatValues rest field_values = some out' ∧ out = lit ++ out' := by
  cases hr : formatValues rest field_values with
  | none => rw [formatValues, hr] at h; exact Option.noConfusion h
  | some o =>
    rw [formatValues, hr] at h
    exact ⟨o, rfl, (Option.some.inj h).symm⟩

/-- Formatting a placeholder head segment prepends literal and value. -/
theorem formatValues_cons_some {lit : Str} {f : String} {rest : FormatString}
    {field_values : FieldValues} {out : Str}
    (h : formatValues (⟨lit, some f⟩ :: rest) field_values = some out) :
    ∃ v out', lookupField field_values f = some v ∧
      formatValues rest field_values = some out' ∧ out = lit ++ (v.toStr ++ out') := by
  cases hv : lookupField field_values f with
  | none => rw [formatValues, hv] at h; exact Option.noConfusion h
  | some v =>
    cases hr : formatValues rest field_values with
    | none => rw [formatValues, hv, hr] at h; exact Option.noConfusion h
    | some o =>
      rw [formatValues, hv, hr] at h
      exact ⟨v, o, rfl, rfl, (Option.some.inj h).symm⟩

/-- A formatted nonempty template starts with its head literal. -/
theorem formatValues_starts_with {seg : FormatSegment} {rest : FormatString}
    {field_values : FieldValues} {out : Str}
    (h : formatValues (seg :: rest) field_values = some out) :
    ∃ tail, out = seg.literal ++ tail := by
  obtain ⟨lit, fld⟩ := seg
  cases fld with
  | none =>
    obtain ⟨o, _, ho⟩ := formatValues_cons_none h
    exact ⟨o, ho⟩
  | some f =>
    obtain ⟨v, o, _, _, ho⟩ := formatValues_cons_some h
    exact ⟨v.toStr ++ o, ho⟩

/-- Looking up the upserted key finds the new value; other keys are unchanged. -/
theorem lookupStr_upsert (m : List (String × Str)) (k : String) (v : Str)
    (g : String) :
    lookupStr (upsertStr m k v) g = if g = k then some v else lookupStr m g := by
  induction m with
  | nil =>
    by_cases hg : g = k
    · simp [upsertStr, lookupStr, List.find?, hg]
    · simp [upsertStr, lookupStr, List.find?, hg, Ne.symm hg]
  | cons p rest ih =>
    by_cases hp : p.1 = k
    · rw [upsertStr, if_pos hp]
      by_cases hg : g = k
      · simp [lookupStr, List.find?, hg]
      · have h1 : (decide (k = g)) = false := decide_eq_false (Ne.symm hg)
        have h2 : (decide (p.1 = g)) = false := decide_eq_false (hp ▸ (Ne.symm hg))
        simp [lookupStr, List.find?, h1, h2, hg]
    · rw [upsertStr, if_neg hp]
      by_cases hpg : p.1 = g
      · have hg : ¬g = k := fun h => hp (hpg.trans h)
        simp [lookupStr, List.find?, hpg, hg]
      · have h2 : (decide (p.1 = g)) = false := decide_eq_false hpg
        have := ih
        simp only [lookupStr, List.find?, h2] at this ⊢
        exact this

/-- Upserting preserves the key list when the key is present, else appends it. -/
theorem keys_upsert (m : List (String × Str)) (k : String) (v : Str) :
    (upsertStr m k v).map (·.1) =
      if m.any (fun p => decide (p.1 = k)) then m.map (·.1) else m.map (·.1) ++ [k] := by
  induction m with
  | nil => simp [upsertStr]
  | cons p rest ih =>
    by_cases hp : p.1 = k
    · simp [upsertStr, hp]
    · simp only [upsertStr, if_neg hp, List.map_cons, List.any_cons,
        decide_eq_false hp, Bool.false_or, ih]
      by_cases h : rest.any (fun p => decide (p.1 = k)) = true <;> simp [h]

/-- Upserting preserves duplicate-freedom of the key list. -/
theorem nodup_keys_upsert (m : List (String × Str)) (k : String) (v : Str)
    (h : (m.map (·.1)).Nodup) : ((upsertStr m k v).map (·.1)).Nodup := by
  rw [keys_upsert]
  by_cases hany : m.any (fun p => decide (p.1 = k)) = true
  · rw [if_pos hany]
    exact h
  · rw [if_neg hany]
    rw [Bool.not_eq_true, List.any_eq_false] at hany
    simp only [decide_eq_true_eq] at hany
    have hk : k ∉ m.map (·.1) := by
      intro hmem
      obtain ⟨p, hp, hp2⟩ := List.mem_map.mp hmem
      exact hany p hp (by simpa using hp2)
    simp [List.nodup_append, h, hk]

/-- The keys of the extraction spec map stay duplicate-free. -/
theorem nodup_keys_applySegs (fmt : FormatString) (field_values : FieldValues) :
    ∀ acc : List (String × Str), (acc.map (·.1)).Nodup →
      ((applySegs acc fmt field_values).map (·.1)).Nodup := by
  induction fmt with
  | nil =>
    intro acc h
    exact h
  | cons seg rest ih =>
    intro acc h
    obtain ⟨lit, fld⟩ := seg
    cases fld with
    | none => exact ih acc h
    | some f =>
      cases hv : lookupField field_values f with
      | none =>
        rw [applySegs, hv]
        exact ih acc h
      | some v =>
        rw [applySegs, hv]
        exact ih _ (nodup_keys_upsert acc f v.toStr h)

/-- Lookup in the extraction spec map: template fields present in the values
map to their stringified values; everything else falls through to the
accumulator. -/
theorem lookupStr_applySegs (field_values : FieldValues) :
    ∀ (fmt : FormatString) (acc : List (String × Str)) (g : String),
      lookupStr (applySegs acc fmt field_values) g =
        if g ∈ segFields fmt ∧ (lookupField field_values g).isSome = true
        then (lookupField field_values g).map FieldValue.toStr
        else lookupStr acc g := by
  intro fmt
  induction fmt with
  | nil =>
    intro acc g
    simp [applySegs, segFields]
  | cons seg rest ih =>
    intro acc g
    obtain ⟨lit, fld⟩ := seg
    cases fld with
    | none =>
      rw [applySegs]
      rw [ih acc g]
      simp [segFields]
    | some f =>
      have hfields : segFields (⟨lit, some f⟩ :: rest) = f :: segFields rest := by
        simp [segFields]
      cases hv : lookupField field_values f with
      | none =>
        rw [applySegs, hv, ih acc g, hfields]
        by_cases hgf : g = f
        · subst hgf
          simp [hv]
        · simp only [List.mem_cons]
          by_cases hgr : g ∈ segFields rest ∧ (lookupField field_values g).isSome = true
          · simp [hgr, hgr.1]
          · rw [if_neg hgr, if_neg]
            intro hc
            rcases hc.1 with h | h
            · exact hgf h
            · exact hgr ⟨h, hc.2⟩
      | some v =>
        rw [applySegs, hv, ih _ g, hfields, lookupStr_upsert]
        by_cases hgr : g ∈ segFields rest ∧ (lookupField field_values g).isSome = true
        · rw [if_pos hgr, if_pos ⟨List.mem_cons_of_mem f hgr.1, hgr.2⟩]
        · rw [if_neg hgr]
          by_cases hgf : g = f
          · subst hgf
            rw [if_pos rfl, if_pos ⟨List.mem_cons_self g (segFields rest), by simp [hv]⟩,
              hv]
            rfl
          · rw [if_neg hgf, if_neg]
            intro hc
            rcases List.mem_cons.mp hc.1 with h | h
            · exact hgf h
            · exact hgr ⟨h, hc.2⟩

/-- Lookup through a dict update: keys of the (duplicate-free) second map win,
everything else falls through to the first. -/
theorem lookupStr_updateWith (b : List (String × Str)) :
    ∀ a : List (String × Str), (b.map (·.1)).Nodup → ∀ g,
      lookupStr (updateWith a b) g =
        if g ∈ b.map (·.1) then lookupStr b g else lookupStr a g := by
  induction b with
  | nil =>
    intro a _ g
    simp [updateWith, lookupStr]
  | cons p b' ih =>
    intro a hnd g
    rw [List.map_cons, List.nodup_cons] at hnd
    have hstep : updateWith a (p :: b') = updateWith (upsertStr a p.1 p.2) b' := rfl
    rw [hstep, ih _ hnd.2 g]
    by_cases hgb : g ∈ b'.map (·.1)
    · have hgp : ¬g = p.1 := fun h => hnd.1 (h ▸ hgb)
      have hmem : g ∈ (p :: b').map (·.1) := by
        rw [List.map_cons]
        exact List.mem_cons_of_mem _ hgb
      rw [if_pos hgb, if_pos hmem]
      have hd : (decide (p.1 = g)) = false := decide_eq_false (fun h : p.1 = g => hgp h.symm)
      simp [lookupStr, List.find?, hd]
    · rw [if_neg hgb, lookupStr_upsert]
      by_cases hgp : g = p.1
      · have hmem : g ∈ (p :: b').map (·.1) := by
          rw [List.map_cons]
          exact List.mem_cons.mpr (Or.inl hgp)
        rw [if_pos hgp, if_pos hmem]
        simp [lookupStr, List.find?, decide_eq_true hgp.symm]
      · rw [if_neg hgp, if_neg]
        intro hc
        rw [List.map_cons] at hc
        rcases List.mem_cons.mp hc with h | h
        · exact hgp h
        · exact hgb h

/-- Reverse extraction undoes formatting segment by segment: on a formatted
string it rebuilds exactly the upserts of the stringified values, for
well-separated templates whose values avoid the literal characters (collected
in `L`). -/
theorem reverseFormatAux_correct (field_values : FieldValues) (L : Str)
    (hdisj : ∀ f v, lookupField field_values f = some v → ∀ c ∈ v.toStr, c ∉ L) :
    ∀ fmt : FormatString, (∀ c ∈ litChars fmt, c ∈ L) →
      wellSeparated fmt = true →
      ∀ (acc : List (String × Str)) (out : Str),
        formatValues fmt field_values = some out →
        reverseFormatAux acc fmt out = some (applySegs acc fmt field_values) := by
  intro fmt
  induction fmt with
  | nil =>
    intro _ _ acc out hout
    have h : out = [] := (Option.some.inj hout).symm
    subst h
    rfl
  | cons seg rest ih =>
    intro hlit hws acc out hout
    have hlitrest : ∀ c ∈ litChars rest, c ∈ L := by
      intro c hc
      apply hlit
      simp only [litChars, List.map_cons, List.flatten_cons, List.mem_append]
      exact Or.inr (by simpa [litChars] using hc)
    obtain ⟨lit, fld⟩ := seg
    have hwsrest : wellSeparated rest = true := by
      cases rest with
      | nil => rfl
      | cons next r2 =>
        rw [wellSeparated, Bool.and_eq_true] at hws
        exact hws.2
    cases fld with
    | none =>
      obtain ⟨out', hrest, hout2⟩ := formatValues_cons_none hout
      subst hout2
      rw [reverseFormatAux, List.drop_left, applySegs]
      exact ih hlitrest hwsrest acc out' hrest
    | some f =>
      obtain ⟨v, out', hv, hrest, hout2⟩ := formatValues_cons_some hout
      subst hout2
      cases rest with
      | nil =>
        have h : out' = [] := (Option.some.inj hrest).symm
        subst h
        rw [reverseFormatAux]
        rw [applySegs, hv, applySegs]
        rw [List.drop_left, List.append_nil]
        rfl
      | cons next r2 =>
        rw [wellSeparated, Bool.and_eq_true] at hws
        have hnextlit : next.literal ≠ [] := by
          intro hnl
          have h1 := hws.1
          simp [hnl] at h1
        have hie : next.literal.isEmpty = false := by
          cases hnl2 : next.literal with
          | nil => exact absurd hnl2 hnextlit
          | cons a as => rfl
        have hlitnext : ∀ c ∈ next.literal, c ∈ L := by
          intro c hc
          apply hlitrest
          simp only [litChars, List.map_cons, List.flatten_cons, List.mem_append]
          exact Or.inl hc
        obtain ⟨tail, htail⟩ := formatValues_starts_with hrest
        have hvchars : ∀ c ∈ v.toStr, c ∉ next.literal :=
          fun c hc hcl => hdisj f v hv c hc (hlitnext c hcl)
        rw [reverseFormatAux]
        simp only [hie, Bool.false_eq_true, if_false, List.drop_left]
        rw [htail, splitBeforeSep_append next.literal v.toStr tail hnextlit hvchars,
          List.drop_left, ← htail, applySegs, hv]
        exact ih hlitrest hwsrest (upsertStr acc f v.toStr) out' hrest

/-- C7 counterexample: with two adjacent placeholders `{a}{b}` (a constructible
index), synthesis succeeds but reverse extraction fails (Python `split('')`
raises ValueError), so the round trip does not reproduce the values. -/
theorem claim7_counterexample :
    mkIndex "pk" adjacentFormat none none (some 100) none (some ":".data) =
      .ok adjacentIndex ∧
    adjacentIndex.full_key adjacentValues = some [("pk", "xy".data)] ∧
    field_values_from_item_keys ⟨adjacentIndex, [], none⟩ [("pk", "xy".data)] =
      none := by decide

/-- C7, corrected: the round trip holds for well-separated templates (every
placeholder that is not the last segment is followed by a nonempty literal),
with the sort key name and format both present or both absent, the sort key
name nonempty when present (an empty name is falsy, so the source skips the
sort-key extraction), distinct partition and sort attribute names, and values
whose characters avoid the templates' literal characters; the extracted map
holds exactly the stringified values of the template fields, so string values
are reproduced exactly. -/
theorem claim7_amended_round_trip (idx : Index) (field_values : FieldValues)
    (item : List (String × Str))
    (hws_pk : wellSeparated idx.partition_key_format = true)
    (hws_sk : wellSeparated (idx.sort_key_format.getD []) = true)
    (hname : idx.sort_key_name ≠ some idx.partition_key_name)
    (hsknz : idx.sort_key_name ≠ some "")
    (hcons : idx.sort_key_name = none → idx.sort_key_format = none)
    (hdisj : ∀ p ∈ field_values, ∀ c ∈ (p.2).toStr,
      c ∉ litChars idx.partition_key_format ++
        litChars (idx.sort_key_format.getD []))
    (hitem : idx.full_key field_values = some item) :
    ∃ m, field_values_from_item_keys ⟨idx, [], none⟩ item = some m ∧
      (∀ g, lookupStr m g =
        if g ∈ segFields idx.partition_key_format ++
            segFields (idx.sort_key_format.getD []) ∧
            (lookupField field_values g).isSome = true
        then (lookupField field_values g).map FieldValue.toStr
        else none) ∧
      (∀ g s, g ∈ segFields idx.partition_key_format ++
          segFields (idx.sort_key_format.getD []) →
        lookupField field_values g = some (.str s) → lookupStr m g = some s) := by
  have hdisj' : ∀ f v, lookupField field_values f = some v → ∀ c ∈ v.toStr,
      c ∉ litChars idx.partition_key_format ++
        litChars (idx.sort_key_format.getD []) := by
    intro f v hfv c hc
    unfold lookupField at hfv
    cases hfp : field_values.find? (fun p => decide (p.1 = f)) with
    | none =>
      rw [hfp] at hfv
      exact Option.noConfusion hfv
    | some p =>
      rw [hfp] at hfv
      have hpm := List.mem_of_find?_eq_some hfp
      have hv2 : p.2 = v := Option.some.inj hfv
      exact (hv2 ▸ hdisj p hpm) c hc
  unfold Index.full_key at hitem
  cases hpk : idx.partition_key_value field_values with
  | none =>
    rw [hpk] at hitem
    exact Option.noConfusion hitem
  | some key =>
    rw [hpk] at hitem
    cases hsk : idx.sort_key_value field_values with
    | none =>
      rw [hsk] at hitem
      exact Option.noConfusion hitem
    | some sk =>
      rw [hsk] at hitem
      have hitem2 : item = updateWith key sk := (Option.some.inj hitem).symm
      unfold Index.partition_key_value at hpk
      cases hpkv : formatValues idx.partition_key_format field_values with
      | none =>
        rw [hpkv] at hpk
        exact Option.noConfusion hpk
      | some pkv =>
        rw [hpkv] at hpk
        have hkey : key = [(idx.partition_key_name, pkv)] :=
          (Option.some.inj hpk).symm
        have hrevpk : reverse_format_string pkv idx.partition_key_format =
            some (applySegs [] idx.partition_key_format field_values) := by
          apply reverseFormatAux_correct field_values _ hdisj'
            idx.partition_key_format _ hws_pk [] pkv hpkv
          intro c hc
          exact List.mem_append.mpr (Or.inl hc)
        have hm0 : ∀ g, lookupStr (applySegs [] idx.partition_key_format field_values) g =
            if g ∈ segFields idx.partition_key_format ∧
                (lookupField field_values g).isSome = true
            then (lookupField field_values g).map FieldValue.toStr
            else none :=
          fun g => lookupStr_applySegs field_values idx.partition_key_format [] g
        cases hskn : idx.sort_key_name with
        | none =>
          have hskf : idx.sort_key_format = none := hcons hskn
          unfold Index.sort_key_value at hsk
          rw [hskn] at hsk
          have hsknil : sk = [] := (Option.some.inj hsk).symm
          subst hsknil
          subst hitem2
          subst hkey
          have hlook2 : lookupStr [(idx.partition_key_name, pkv)]
              idx.partition_key_name = some pkv := by
            simp [lookupStr, List.find?]
          have hchar : ∀ g, lookupStr (applySegs [] idx.partition_key_format field_values) g =
              if g ∈ segFields idx.partition_key_format ++
                  segFields (idx.sort_key_format.getD []) ∧
                  (lookupField field_values g).isSome = true
              then (lookupField field_values g).map FieldValue.toStr
              else none := by
            intro g
            rw [hskf, show segFields ((none : Option FormatString).getD []) = []
              from rfl, List.append_nil]
            exact hm0 g
          refine ⟨applySegs [] idx.partition_key_format field_values, ?_, hchar, ?_⟩
          · simp only [field_values_from_item_keys, updateWith, List.foldl_nil,
              hlook2, hskn, hrevpk, Option.bind_eq_bind, Option.some_bind,
              Option.pure_def, List.foldlM_nil]
          · intro g s hmem hl
            rw [hchar g, if_pos ⟨hmem, by rw [hl]; rfl⟩, hl]
            rfl
        | some skn =>
          have hnepk : skn ≠ idx.partition_key_name := by
            intro he
            exact hname (by rw [hskn, he])
          unfold Index.sort_key_value at hsk
          rw [hskn] at hsk
          cases hskf : idx.sort_key_format with
          | none =>
            rw [hskf] at hsk
            exact Option.noConfusion hsk
          | some skf =>
            rw [hskf] at hsk
            have hsk' : Option.map (fun s => [(skn, s)])
                (formatValues skf field_values) = some sk := hsk
            cases hskv : formatValues skf field_values with
            | none =>
              rw [hskv] at hsk'
              exact Option.noConfusion hsk'
            | some skv =>
              rw [hskv] at hsk'
              have hsk2 : sk = [(skn, skv)] := (Option.some.inj hsk').symm
              subst hsk2
              subst hitem2
              subst hkey
              rw [hskf] at hws_sk
              have hitem3 : updateWith [(idx.partition_key_name, pkv)] [(skn, skv)] =
                  [(idx.partition_key_name, pkv), (skn, skv)] := by
                simp [updateWith, upsertStr, Ne.symm hnepk]
              have hrevsk : reverse_format_string skv skf =
                  some (applySegs [] skf field_values) := by
                apply reverseFormatAux_correct field_values _ hdisj' skf _
                  hws_sk [] skv hskv
                intro c hc
                refine List.mem_append.mpr (Or.inr ?_)
                rw [hskf]
                exact hc
              have hlookpk : lookupStr [(idx.partition_key_name, pkv), (skn, skv)]
                  idx.partition_key_name = some pkv := by
                simp [lookupStr, List.find?]
              have hlooksk : lookupStr [(idx.partition_key_name, pkv), (skn, skv)]
                  skn = some skv := by
                simp [lookupStr, List.find?, Ne.symm hnepk]
              have hm1 : ∀ g, lookupStr (applySegs [] skf field_values) g =
                  if g ∈ segFields skf ∧ (lookupField field_values g).isSome = true
                  then (lookupField field_values g).map FieldValue.toStr
                  else none :=
                fun g => lookupStr_applySegs field_values skf [] g
              have hkeys : ∀ g, g ∈ (applySegs [] skf field_values).map (·.1) ↔
                  (g ∈ segFields skf ∧ (lookupField field_values g).isSome = true) := by
                intro g2
                rw [mem_keysStr_iff_isSome, hm1 g2]
                by_cases hcnd : g2 ∈ segFields skf ∧
                    (lookupField field_values g2).isSome = true
                · rw [if_pos hcnd]
                  cases hl : lookupField field_values g2 with
                  | none =>
                    rw [hl] at hcnd
                    simp at hcnd
                  | some v => simp [hcnd]
                · rw [if_neg hcnd]
                  simp [hcnd]
              have hnd1 : ((applySegs [] skf field_values).map (·.1)).Nodup :=
                nodup_keys_applySegs skf field_values [] (by simp)
              have hchar : ∀ g, lookupStr (updateWith
                  (applySegs [] idx.partition_key_format field_values)
                  (applySegs [] skf field_values)) g =
                  if g ∈ segFields idx.partition_key_format ++
                      segFields ((some skf : Option FormatString).getD []) ∧
                      (lookupField field_values g).isSome = true
                  then (lookupField field_values g).map FieldValue.toStr
                  else none := by
                intro g
                rw [lookupStr_updateWith _ _ hnd1 g,
                  show segFields ((some skf : Option FormatString).getD []) = segFields skf
                    from rfl]
                by_cases hg1 : g ∈ (applySegs [] skf field_values).map (·.1)
                · have hc := (hkeys g).mp hg1
                  rw [if_pos hg1, hm1 g, if_pos hc,
                    if_pos ⟨List.mem_append.mpr (Or.inr hc.1), hc.2⟩]
                · rw [if_neg hg1, hm0 g]
                  by_cases hcpk : g ∈ segFields idx.partition_key_format ∧
                      (lookupField field_values g).isSome = true
                  · rw [if_pos hcpk,
                      if_pos ⟨List.mem_append.mpr (Or.inl hcpk.1), hcpk.2⟩]
                  · rw [if_neg hcpk, if_neg]
                    intro hcc
                    rcases List.mem_append.mp hcc.1 with h | h
                    · exact hcpk ⟨h, hcc.2⟩
                    · exact hg1 ((hkeys g).mpr ⟨h, hcc.2⟩)
              have hskne : skn ≠ "" := fun h => hsknz (by rw [hskn, h])
              refine ⟨updateWith (applySegs [] idx.partition_key_format field_values)
                (applySegs [] skf field_values), ?_, hchar, ?_⟩
              · rw [hitem3]
                simp only [field_values_from_item_keys, hlookpk, hskn, hlooksk,
                  hskf, hrevpk, hrevsk, if_pos hskne, Option.bind_eq_bind,
                  Option.some_bind, Option.pure_def, List.foldlM_nil]
              · intro g s hmem hl
                rw [hchar g, if_pos ⟨hmem, by rw [hl]; rfl⟩, hl]
                rfl

/-- Witness for C7 (amended) at `roundIndex` and `roundValues`. -/
theorem claim7_witness :
    (wellSeparated roundIndex.partition_key_format = true ∧
      wellSeparated (roundIndex.sort_key_format.getD []) = true ∧
      roundIndex.sort_key_name ≠ some roundIndex.partition_key_name ∧
      roundIndex.sort_key_name ≠ some "" ∧
      (∀ p ∈ roundValues, ∀ c ∈ (p.2).toStr,
        c ∉ litChars roundIndex.partition_key_format ++
          litChars (roundIndex.sort_key_format.getD [])) ∧
      roundIndex.full_key roundValues =
        some [("pk", "p:x".data), ("sk", "s:y".data)]) ∧
    (∃ m, field_values_from_item_keys ⟨roundIndex, [], none⟩
        [("pk", "p:x".data), ("sk", "s:y".data)] = some m ∧
      (∀ g, lookupStr m g =
        if g ∈ segFields roundIndex.partition_key_format ++
            segFields (roundIndex.sort_key_format.getD []) ∧
            (lookupField roundValues g).isSome = true
        then (lookupField roundValues g).map FieldValue.toStr
        else none) ∧
      (∀ g s, g ∈ segFields roundIndex.partition_key_format ++
          segFields (roundIndex.sort_key_format.getD []) →
        lookupField roundValues g = some (.str s) → lookupStr m g = some s)) :=
  ⟨⟨by decide, by decide, by decide, by decide, by decide, by decide⟩,
    claim7_amended_round_trip roundIndex roundValues
      [("pk", "p:x".data), ("sk", "s:y".data)] (by decide) (by decide) (by decide)
      (by decide) (fun h => absurd h (by decide)) (by decide) (by decide)⟩
